import Mathlib

/-!
Verification development for `split.py`, a batch utility that walks a
directory tree of music album folders and, for each folder containing a
cue sheet, converts audio to FLAC, splits it per the cue sheet, tags
tracks, sanitizes filenames and removes trash files.

Modelling conventions:
* A path is a list of characters (the source manipulates paths as
  strings).
* File text is a list of characters; the cue sheet is read and written
  with a byte-per-character reading, so the UTF-8 byte-order-mark is the
  character sequence `'\xEF' :: '\xBB' :: '\xBF'`, exactly the sequence
  that the source's `text.replace('\xEF\xBB\xBF', '')` operates on.
* A filesystem is an association list from full file paths to file text.
  Directories are implicit; real directory listings have no duplicate
  paths, which theorems assume explicitly where needed.
* External tools (sox, shntool, shnsplit, cuetag.sh) are black boxes: their
  invocations are recorded as commands; any files the tools themselves
  create are outside the model.
* Uncaught Python exceptions (`TypeError` from `os.remove(None)`,
  `FileNotFoundError`) are modelled as `Except` faults.
-/

abbrev FPath : Type := List Char

abbrev FS : Type := List (FPath × List Char)

/-- Lexicographic comparison of character lists by code point, the order
`list.sort()` uses on Python strings. -/
def lexLe : List Char → List Char → Bool
  | [], _ => true
  | _ :: _, [] => false
  | a :: as, b :: bs => if a < b then true else if b < a then false else lexLe as bs

/-- Insert into a sorted list, keeping earlier elements first on ties. -/
def insertLe (le : α → α → Bool) (x : α) : List α → List α
  | [] => [x]
  | y :: ys => if le x y then x :: y :: ys else y :: insertLe le x ys

/-- Stable insertion sort; models Python's stable `list.sort()`. -/
def sortLe (le : α → α → Bool) : List α → List α
  | [] => []
  | x :: xs => insertLe le x (sortLe le xs)

theorem insertLe_perm (le : α → α → Bool) (x : α) (l : List α) :
    List.Perm (insertLe le x l) (x :: l) := by
  induction l with
  | nil => simp [insertLe]
  | cons y ys ih =>
    simp only [insertLe]
    by_cases h : le x y = true
    · simp [h]
    · simp only [h, if_false]
      exact (List.Perm.cons y ih).trans (List.Perm.swap x y ys)

theorem sortLe_perm (le : α → α → Bool) (l : List α) :
    List.Perm (sortLe le l) l := by
  induction l with
  | nil => simp [sortLe]
  | cons x xs ih =>
    exact (insertLe_perm le x (sortLe le xs)).trans (List.Perm.cons x ih)

theorem mem_sortLe (le : α → α → Bool) (l : List α) (a : α) :
    a ∈ sortLe le l ↔ a ∈ l :=
  (sortLe_perm le l).mem_iff

theorem nodup_sortLe (le : α → α → Bool) (l : List α) (h : l.Nodup) :
    (sortLe le l).Nodup :=
  (sortLe_perm le l).nodup_iff.mpr h

/-- The UTF-8 byte-order-mark as read byte-per-character. -/
def bomSeq : List Char := ['\xEF', '\xBB', '\xBF']

/-- `text.replace('\xEF\xBB\xBF', '')` from `AlbumSplitter._prepare_cue`:
delete every occurrence of the three-character sequence, scanning left to
right and continuing after each deleted occurrence. -/
def stripBOMAll : List Char → List Char
  | '\xEF' :: '\xBB' :: '\xBF' :: rest => stripBOMAll rest
  | c :: rest => c :: stripBOMAll rest
  | [] => []

/-- Whether the byte-order-mark sequence occurs anywhere in the text. -/
def hasSeq : List Char → Bool
  | '\xEF' :: '\xBB' :: '\xBF' :: _ => true
  | _ :: rest => hasSeq rest
  | [] => false

theorem stripBOMAll_cons (c : Char) (rest : List Char)
    (h : ∀ r, c = '\xEF' → rest = '\xBB' :: '\xBF' :: r → False) :
    stripBOMAll (c :: rest) = c :: stripBOMAll rest := by
  rw [stripBOMAll.eq_def]
  split
  · next r heq =>
    injection heq with h1 h2
    exact (h r h1 h2).elim
  · next c' rest' hmis heq =>
    injection heq with h1 h2
    rw [← h1, ← h2]
  · next heq => simp at heq

theorem hasSeq_cons (c : Char) (rest : List Char)
    (h : ∀ r, c = '\xEF' → rest = '\xBB' :: '\xBF' :: r → False) :
    hasSeq (c :: rest) = hasSeq rest := by
  rw [hasSeq.eq_def]
  split
  · next r heq =>
    injection heq with h1 h2
    exact (h r h1 h2).elim
  · next c' rest' hmis heq =>
    injection heq with h1 h2
    rw [← h2]
  · next heq => simp at heq

/-- If the byte-order-mark sequence occurs nowhere in the text, the
replacement leaves the text unchanged. -/
theorem stripBOMAll_of_hasSeq_false (s : List Char) (h : hasSeq s = false) :
    stripBOMAll s = s := by
  induction s using stripBOMAll.induct with
  | case1 rest ih => simp [hasSeq] at h
  | case2 c rest hne ih =>
    rw [stripBOMAll_cons c rest (fun r h1 h2 => hne r h1 h2)]
    rw [hasSeq_cons c rest (fun r h1 h2 => hne r h1 h2)] at h
    rw [ih h]
  | case3 => rfl

theorem stripBOMAll_bom_cons (s : List Char) :
    stripBOMAll ('\xEF' :: '\xBB' :: '\xBF' :: s) = stripBOMAll s := rfl

namespace AlbumSplitter

/-! The glob wildcards the source uses are all of the form `*.ext`; a
pattern is represented by its literal suffix. A basename matches `*.ext`
when it does not start with a dot (glob hides dotfiles), contains no
slash (the wildcard does not cross directory separators) and ends with
the suffix. -/

def cueSuf : List Char := ".cue".data

def flacSuf : List Char := ".flac".data

def wavSuf : List Char := ".wav".data

def wvSuf : List Char := ".wv".data

def apeSuf : List Char := ".ape".data

def logSuf : List Char := ".log".data

/-- Whether path `p` is matched by `glob.glob(f'{album}/*{suf}')`. -/
def matchesGlob (album : FPath) (suf : List Char) (p : FPath) : Bool :=
  (album ++ ['/']).isPrefixOf p &&
    (let name := p.drop (album.length + 1)
     name.head? != some '.' && suf.isSuffixOf name && !(name.contains '/'))

/-- `AlbumSplitter._all`: glob the album folder and sort the results. -/
def all (fs : FS) (album : FPath) (suf : List Char) : List FPath :=
  sortLe lexLe ((fs.map Prod.fst).filter (matchesGlob album suf))

/-- `AlbumSplitter._first`: the first sorted match, if any. -/
def first (fs : FS) (album : FPath) (suf : List Char) : Option FPath :=
  (all fs album suf).head?

/-- The rename target `_sanitize_filenames` computes for a globbed path:
`flac.replace(':', '').replace('?', '')`, applied to the whole path
string. -/
def newname (p : FPath) : FPath :=
  (p.filter (fun c => c != ':')).filter (fun c => c != '?')

/-- A path free of the colon and question-mark characters. -/
def cleanP (p : FPath) : Bool :=
  p.all (fun c => c != ':' && c != '?')

/-- The lazily-cached cue/flac resolution state of an `AlbumSplitter`
instance (`self._cue_file`, `self._flac_file`; `None` when unresolved or
absent — a glob hit is a nonempty path, never falsy). -/
structure SpState where
  cue : Option FPath
  flac : Option FPath
deriving DecidableEq

/-- `AlbumSplitter._get_cue_file`: re-glob while the cached field is
`None`, else return the cached path unchanged. -/
def get_cue_file (st : SpState) (fs : FS) (album : FPath) : Option FPath × SpState :=
  match st.cue with
  | some c => (some c, st)
  | none =>
    let c := first fs album cueSuf
    (c, { cue := c, flac := st.flac })

/-- `AlbumSplitter._get_flac_file`: same caching for the merged FLAC. -/
def get_flac_file (st : SpState) (fs : FS) (album : FPath) : Option FPath × SpState :=
  match st.flac with
  | some f => (some f, st)
  | none =>
    let f := first fs album flacSuf
    (f, { cue := st.cue, flac := f })

/-- `AlbumSplitter.__init__`: resolve the cue sheet, then the merged
FLAC, caching both. -/
def initState (fs : FS) (album : FPath) : SpState :=
  let r1 := get_cue_file { cue := none, flac := none } fs album
  let r2 := get_flac_file r1.2 fs album
  r2.2

/-- An external tool invocation (`subprocess.call`); the tools' own
filesystem effects are outside the model. -/
inductive Cmd where
  | sox (src : FPath)
  | shntool (src : FPath)
  | shnsplit (cue : FPath) (flacArg : FPath)
  | cuetag (cue : FPath) (flacs : List FPath)
deriving DecidableEq

/-- An uncaught Python exception. -/
inductive Fault where
  | typeError
  | fileNotFound
deriving DecidableEq

/-- `str(...)` as applied to each command argument by `_run_cmd`:
`str(None)` is the four-character string `"None"`. -/
def strOf : Option FPath → FPath
  | some p => p
  | none => "None".data

/-- `pathlib.Path(p).read_text()`, `None` when no such file. -/
def read_file (fs : FS) (p : FPath) : Option (List Char) :=
  (fs.find? (fun e => e.1 == p)).map Prod.snd

/-- `pathlib.Path(p).write_text(t)`: replace the content, or create the
file. -/
def write_file (fs : FS) (p : FPath) (t : List Char) : FS :=
  if fs.any (fun e => e.1 == p) then fs.map (fun e => if e.1 == p then (p, t) else e)
  else fs ++ [(p, t)]

/-- `os.remove(p)`: delete the file, `FileNotFoundError` when absent. -/
def os_remove (fs : FS) (p : FPath) : Except Fault FS :=
  if fs.any (fun e => e.1 == p) then .ok (fs.filter (fun e => !(e.1 == p)))
  else .error .fileNotFound

/-- `os.rename(src, dst)` as used by `_sanitize_filenames`: the source
entry gets the destination path, silently replacing any file already at
the destination (POSIX semantics; every call site passes a source taken
from the glob listing, so the source exists). -/
def os_rename (fs : FS) (src dst : FPath) : FS :=
  (fs.filter (fun e => !(e.1 == dst))).map (fun e => if e.1 == src then (dst, e.2) else e)

/-- `AlbumSplitter._prepare_cue`: read the cue sheet, delete every
occurrence of the byte-order-mark sequence, write the text back. -/
def prepare_cue (cue : FPath) (fs : FS) : Except Fault FS :=
  match read_file fs cue with
  | none => .error .fileNotFound
  | some t => .ok (write_file fs cue (stripBOMAll t))

/-- `self._first('*.wav') or self._first('*.wv')` — Python `or` takes
the second operand exactly when the first is `None` (a glob hit is a
nonempty string, never falsy). -/
def firstWavWv (fs : FS) (album : FPath) : Option FPath :=
  match first fs album wavSuf with
  | some w => some w
  | none => first fs album wvSuf

/-- `AlbumSplitter._convert_to_flac`: `sox` on the first `*.wav` (or,
when none, the first `*.wv`) if present; independently `shntool` on the
first `*.ape` if present. -/
def convert_to_flac (fs : FS) (album : FPath) : List Cmd :=
  (match firstWavWv fs album with
   | some w => [Cmd.sox w]
   | none => []) ++
    (match first fs album apeSuf with
     | some a => [Cmd.shntool a]
     | none => [])

/-- The pregap artifact `_remove_flac` conditionally deletes. -/
def pregapPath (album : FPath) : FPath := album ++ '/' :: "00 - pregap.flac".data

/-- `AlbumSplitter._remove_flac`: `os.remove(self._flac_file)` — a
`TypeError` when the cached field is still `None` — then delete the
pregap file if it exists. -/
def remove_flac (album : FPath) (flacFile : Option FPath) (fs : FS) : Except Fault FS :=
  match flacFile with
  | none => .error .typeError
  | some f =>
    match os_remove fs f with
    | .error e => .error e
    | .ok fs2 =>
      if fs2.any (fun e => e.1 == pregapPath album) then
        .ok (fs2.filter (fun e => !(e.1 == pregapPath album)))
      else .ok fs2

/-- The rename loop of `_sanitize_filenames` over the glob listing,
which is computed once before the loop. -/
def sanitizeGo : List FPath → FS → FS
  | [], g => g
  | p :: rest, g =>
    if newname p = p then sanitizeGo rest g
    else sanitizeGo rest (os_rename g p (newname p))

/-- `AlbumSplitter._sanitize_filenames`. -/
def sanitize_filenames (album : FPath) (fs : FS) : FS :=
  sanitizeGo (all fs album flacSuf) fs

def trashSufs : List (List Char) :=
  [".log".data, ".ape".data, ".cue".data, ".wv".data, ".wav".data]

def trashDirs : List (List Char) :=
  ["Scans".data, "Covers".data, "scans".data, "covers".data, "Artwork".data, "artwork".data]

/-- `AlbumSplitter._remove_trash`: `os.remove` every glob match of each
trash wildcard (removing each listed file deletes exactly the matches),
then `shutil.rmtree(..., ignore_errors=True)` each artwork folder
(dropping every file underneath it, with no error when absent). -/
def remove_trash (album : FPath) (fs : FS) : FS :=
  let fs1 := trashSufs.foldl (fun g suf => g.filter (fun e => !(matchesGlob album suf e.1))) fs
  trashDirs.foldl
    (fun g d => g.filter (fun e => !((album ++ '/' :: (d ++ ['/'])).isPrefixOf e.1))) fs1

/-- `AlbumSplitter.split`: the per-album pipeline. Returns the resulting
filesystem and the recorded tool invocations, or the first uncaught
fault. -/
def split (album : FPath) (fs : FS) : Except Fault (FS × List Cmd) :=
  let st0 := initState fs album
  let r1 := get_cue_file st0 fs album
  match r1.1 with
  | none => .ok (fs, [])
  | some _ =>
    let r2 := get_cue_file r1.2 fs album
    match r2.1 with
    | none => .error .typeError
    | some cue =>
      match read_file fs cue with
      | none => .error .fileNotFound
      | some t =>
        let fs1 := write_file fs cue (stripBOMAll t)
        let cmds1 := convert_to_flac fs1 album
        let r3 := get_cue_file r2.2 fs1 album
        let r4 := get_flac_file r3.2 fs1 album
        let cmds2 := cmds1 ++ [Cmd.shnsplit (strOf r3.1) (strOf r4.1)]
        match remove_flac album r4.2.flac fs1 with
        | .error e => .error e
        | .ok fs2 =>
          let r5 := get_cue_file r4.2 fs2 album
          let cmds3 := cmds2 ++ [Cmd.cuetag (strOf r5.1) (all fs2 album flacSuf)]
          let fs3 := sanitize_filenames album fs2
          let fs4 := remove_trash album fs3
          .ok (fs4, cmds3)

end AlbumSplitter

/-- A directory: a name, the plain files it directly contains (basename
and text), and its subdirectories. The tree is fixed for the duration of
the walk: deletions an album pipeline performs are not reflected in the
traversal. -/
inductive Dir where
  | node (name : List Char) (files : List (List Char × List Char)) (children : List Dir)

def Dir.name : Dir → List Char
  | .node n _ _ => n

def Dir.files : Dir → List (List Char × List Char)
  | .node _ fls _ => fls

def Dir.children : Dir → List Dir
  | .node _ _ cs => cs

mutual

def sizeD : Dir → Nat
  | .node _ _ cs => 1 + countDirs cs

def countDirs : List Dir → Nat
  | [] => 0
  | d :: rest => sizeD d + countDirs rest

end

/-- `os.path.join`, as `f.path` and `pathlib.Path(folder, subfolder)`
produce it for a subentry of `folder`. -/
def joinP (folder : FPath) (name : List Char) : FPath := folder ++ '/' :: name

/-- The album-folder filesystem an `AlbumSplitter` scoped to `album`
sees: the folder's direct files under their full paths. -/
def albumFs (album : FPath) (files : List (List Char × List Char)) : FS :=
  files.map (fun nf => (joinP album nf.1, nf.2))

/-- `subfolders.sort()`: the subdirectory list sorted by full path. -/
def sortDirs (folder : FPath) (ds : List Dir) : List Dir :=
  sortLe (fun a b => lexLe (joinP folder a.name) (joinP folder b.name)) ds

/-- The loop of `Split._process_folder` over the sorted subfolder list:
run the album pipeline on a subfolder, then recurse into it, then move
to the next sibling; an uncaught fault stops everything. Returns the
albums whose pipeline was invoked, in order, and the fault if one
occurred. Recursion depth is bounded by the number of directories; the
bound is threaded explicitly as fuel (any `fuel > countDirs` gives the
untruncated walk). -/
def walkSorted : Nat → FPath → List Dir → List FPath × Option AlbumSplitter.Fault
  | _, _, [] => ([], none)
  | 0, _, _ :: _ => ([], none)
  | fuel + 1, folder, c :: rest =>
    let a := joinP folder c.name
    match AlbumSplitter.split a (albumFs a c.files) with
    | .error f => ([a], some f)
    | .ok _ =>
      match walkSorted fuel a (sortDirs a c.children) with
      | (vs, some f) => (a :: vs, some f)
      | (vs, none) =>
        match walkSorted fuel folder rest with
        | (vs2, r) => (a :: (vs ++ vs2), r)

/-- `Split._process_folder folder`: list the subfolders, sort them, and
process each. -/
def process_folder (fuel : Nat) (folder : FPath) (ds : List Dir) :
    List FPath × Option AlbumSplitter.Fault :=
  walkSorted fuel folder (sortDirs folder ds)

/-- Modelled from the spec: the intended visit order — subfolders in
lexicographically sorted order, depth-first and pre-order: visit a
subfolder, then its whole subtree, then the next sibling; the root
folder itself is never visited. Defined over an already-sorted sibling
list. -/
def specGo : Nat → FPath → List Dir → List FPath
  | _, _, [] => []
  | 0, _, _ :: _ => []
  | fuel + 1, folder, c :: rest =>
    joinP folder c.name ::
      (specGo fuel (joinP folder c.name) (sortDirs (joinP folder c.name) c.children) ++
        specGo fuel folder rest)

/-- Modelled from the spec: the visit order for the subfolders of
`folder`. -/
def specVisit (fuel : Nat) (folder : FPath) (ds : List Dir) : List FPath :=
  specGo fuel folder (sortDirs folder ds)

/-- The command list of a pipeline result (`[]` when it faulted). -/
def cmdsOf (r : Except AlbumSplitter.Fault (FS × List AlbumSplitter.Cmd)) :
    List AlbumSplitter.Cmd :=
  match r with
  | .ok x => x.2
  | .error _ => []

/-- The directory part of a path: everything before the last slash. -/
def dirname (p : FPath) : FPath :=
  (((p.reverse).dropWhile (fun c => c != '/')).drop 1).reverse

open AlbumSplitter

theorem head?_mem {l : List α} {a : α} (h : l.head? = some a) : a ∈ l := by
  cases l with
  | nil => simp at h
  | cons x xs => simp at h; simp [h]

theorem mem_paths_of_first {fs : FS} {album : FPath} {suf : List Char} {c : FPath}
    (h : first fs album suf = some c) : c ∈ fs.map Prod.fst := by
  have h1 : c ∈ all fs album suf := head?_mem h
  rw [all, mem_sortLe] at h1
  exact (List.mem_filter.mp h1).1

theorem read_file_of_mem {fs : FS} {p : FPath} (h : p ∈ fs.map Prod.fst) :
    ∃ t, read_file fs p = some t := by
  induction fs with
  | nil => simp at h
  | cons e rest ih =>
    by_cases he : e.1 = p
    · exact ⟨e.2, by simp [read_file, List.find?, he]⟩
    · have h2 : p ∈ rest.map Prod.fst := by
        rcases List.mem_map.mp h with ⟨e', he', hfst⟩
        rcases List.mem_cons.mp he' with h3 | h3
        · exact absurd (h3 ▸ hfst) he
        · exact List.mem_map.mpr ⟨e', h3, hfst⟩
      rcases ih h2 with ⟨t, ht⟩
      refine ⟨t, ?_⟩
      simp only [read_file, List.find?, show (e.1 == p) = false by simp [he]]
      simpa [read_file] using ht

theorem any_path_of_mem {fs : FS} {p : FPath} (h : p ∈ fs.map Prod.fst) :
    fs.any (fun e => e.1 == p) = true := by
  rcases List.mem_map.mp h with ⟨e, he, hfst⟩
  exact List.any_eq_true.mpr ⟨e, he, by simp [hfst]⟩

theorem write_file_paths {fs : FS} {p : FPath} (t : List Char)
    (h : p ∈ fs.map Prod.fst) :
    (write_file fs p t).map Prod.fst = fs.map Prod.fst := by
  rw [write_file, if_pos (any_path_of_mem h), List.map_map]
  refine List.map_congr_left ?_
  intro e _
  by_cases he : e.1 = p
  · simp [he]
  · simp [he]

theorem all_congr_paths {fs fs' : FS} (album : FPath) (suf : List Char)
    (h : fs.map Prod.fst = fs'.map Prod.fst) :
    all fs album suf = all fs' album suf := by
  rw [all, all, h]

/-- C1 (the code at the claim's failing input): on a cue sheet with no
byte-order-mark at the start but the BOM byte sequence in the interior,
`_prepare_cue` alters the content — its `text.replace` deletes every
occurrence of the sequence, not only a leading one, although the
method's own docstring documents the anchored `sed -i '1s/^BOM//'`. -/
theorem prepare_cue_alters_interior_bom :
    prepare_cue ("/a/x.cue".data) [(("/a/x.cue".data), "A".data ++ bomSeq)]
      = .ok [(("/a/x.cue".data), "A".data)]
    ∧ "A".data ++ bomSeq ≠ "A".data := by
  exact ⟨rfl, by decide⟩

/-- C2: for an album folder without a cue sheet, `split` performs no
filesystem mutation and invokes no external tool. -/
theorem split_no_cue_noop (album : FPath) (fs : FS)
    (h : first fs album cueSuf = none) :
    split album fs = .ok (fs, []) := by
  simp [split, initState, get_cue_file, get_flac_file, h]

/-- C2 witness. -/
theorem split_no_cue_noop_witness :
    split ("/a".data) [(("/a/x.mp3".data), "m".data)]
      = .ok ([(("/a/x.mp3".data), "m".data)], []) :=
  split_no_cue_noop ("/a".data) [(("/a/x.mp3".data), "m".data)] (by decide)

/-- C8 counterexample: the preparation transformation is not idempotent:
deleting an occurrence of the BOM sequence can splice a new occurrence
together, which a second run then also deletes. -/
theorem prepare_cue_not_idempotent :
    stripBOMAll (stripBOMAll ['\xEF', '\xBB', '\xEF', '\xBB', '\xBF', '\xBF'])
      ≠ stripBOMAll ['\xEF', '\xBB', '\xEF', '\xBB', '\xBF', '\xBF'] := by
  decide

/-- C8 (amended): the preparation transformation is the identity on cue
text in which the BOM byte sequence does not occur, and re-applying it
is a no-op whenever its first application eliminated every occurrence
(in particular on any text with no occurrence at all). -/
theorem prepare_cue_idempotent_without_occurrence :
    (∀ s, hasSeq s = false → stripBOMAll s = s)
    ∧ ∀ s, hasSeq (stripBOMAll s) = false →
        stripBOMAll (stripBOMAll s) = stripBOMAll s := by
  exact ⟨stripBOMAll_of_hasSeq_false,
    fun s h => stripBOMAll_of_hasSeq_false (stripBOMAll s) h⟩

/-- C8 witness. -/
theorem prepare_cue_idempotent_without_occurrence_witness :
    stripBOMAll ("REM GENRE Rock".data) = "REM GENRE Rock".data :=
  prepare_cue_idempotent_without_occurrence.1 ("REM GENRE Rock".data) (by decide)

/-- C5: `_remove_flac` deletes exactly the resolved merged FLAC file and
(when present) the pregap artifact; every other entry — in particular
the numbered per-track files — survives unchanged. The pregap deletion
is guarded by an existence check, so its absence is not an error. -/
theorem remove_flac_removes_image_and_pregap (album f : FPath) (fs : FS)
    (hf : f ∈ fs.map Prod.fst) :
    remove_flac album (some f) fs
      = .ok (fs.filter (fun e => !(e.1 == f) && !(e.1 == pregapPath album)))
    ∧ ∀ e ∈ fs, e.1 ≠ f → e.1 ≠ pregapPath album →
        e ∈ fs.filter (fun e => !(e.1 == f) && !(e.1 == pregapPath album)) := by
  constructor
  · rw [remove_flac, os_remove, if_pos (any_path_of_mem hf)]
    dsimp only
    by_cases hp :
        ((fs.filter (fun e => !(e.1 == f))).any (fun e => e.1 == pregapPath album)) = true
    · rw [if_pos hp, List.filter_filter]
      exact congrArg Except.ok (List.filter_congr (fun e _ => Bool.and_comm _ _))
    · rw [if_neg hp]
      have hall : ∀ e ∈ fs.filter (fun e => !(e.1 == f)),
          (!(e.1 == pregapPath album)) = true := by
        intro e he
        rcases Bool.eq_false_or_eq_true (e.1 == pregapPath album) with h1 | h1
        · exact absurd (List.any_eq_true.mpr ⟨e, he, h1⟩) hp
        · simp [h1]
      refine congrArg Except.ok (List.filter_congr ?_)
      intro e he
      by_cases hef : (e.1 == f) = true
      · simp [hef]
      · have hmem : e ∈ fs.filter (fun e => !(e.1 == f)) :=
          List.mem_filter.mpr ⟨he, by simp [hef]⟩
        have h2 := hall e hmem
        simp only [Bool.not_eq_true] at hef
        simp [hef, h2]
  · intro e he h1 h2
    exact List.mem_filter.mpr ⟨he, by simp [h1, h2]⟩

/-- C5 witness: the claim's concrete scenario. -/
theorem remove_flac_removes_image_and_pregap_witness :
    remove_flac ("/a".data) (some ("/a/file.flac".data))
      [(("/a/00 - pregap.flac".data), "p".data), (("/a/01 - Track.flac".data), "1".data),
        (("/a/02 - Track.flac".data), "2".data), (("/a/file.flac".data), "f".data)]
      = .ok [(("/a/01 - Track.flac".data), "1".data), (("/a/02 - Track.flac".data), "2".data)] := by
  rw [(remove_flac_removes_image_and_pregap ("/a".data) ("/a/file.flac".data) _ (by decide)).1]
  rfl

/-- C6: the WAV/WV conversion source is the alphabetically first `*.wav`
file, or — only when no `*.wav` exists — the alphabetically first `*.wv`
file, and `sox` is invoked exactly when such a source exists; the `*.ape`
conversion runs independently on the alphabetically first `*.ape` file;
when both kinds of source exist, both conversions run. -/
theorem convert_to_flac_sources (fs : FS) (album : FPath) :
    (∀ w, first fs album wavSuf = some w →
      Cmd.sox w ∈ convert_to_flac fs album)
    ∧ (first fs album wavSuf = none →
      ∀ v, first fs album wvSuf = some v → Cmd.sox v ∈ convert_to_flac fs album)
    ∧ (∀ w, Cmd.sox w ∈ convert_to_flac fs album →
      first fs album wavSuf = some w
        ∨ (first fs album wavSuf = none ∧ first fs album wvSuf = some w))
    ∧ (∀ a, Cmd.shntool a ∈ convert_to_flac fs album ↔
      first fs album apeSuf = some a) := by
  rcases hw : first fs album wavSuf with _ | w0 <;>
    rcases hv : first fs album wvSuf with _ | v0 <;>
      rcases ha : first fs album apeSuf with _ | a0 <;>
        simp [convert_to_flac, firstWavWv, hw, hv, ha, eq_comm]

/-- C6 witness: a folder holding wav, wv and ape sources at once. -/
theorem convert_to_flac_sources_witness :
    Cmd.sox ("/a/x.wav".data)
        ∈ convert_to_flac
          [(("/a/x.wav".data), "w".data), (("/a/y.wv".data), "v".data),
            (("/a/z.ape".data), "a".data)] ("/a".data)
    ∧ Cmd.shntool ("/a/z.ape".data)
        ∈ convert_to_flac
          [(("/a/x.wav".data), "w".data), (("/a/y.wv".data), "v".data),
            (("/a/z.ape".data), "a".data)] ("/a".data) :=
  ⟨(convert_to_flac_sources _ _).1 ("/a/x.wav".data) (by decide),
    ((convert_to_flac_sources _ _).2.2.2 ("/a/z.ape".data)).mpr (by decide)⟩

theorem newname_eq_filter (p : FPath) :
    newname p = p.filter (fun c => c != ':' && c != '?') := by
  rw [newname, List.filter_filter]
  exact List.filter_congr (fun c _ => Bool.and_comm _ _)

theorem cleanP_iff (p : FPath) :
    cleanP p = true ↔ ∀ c ∈ p, (c != ':' && c != '?') = true := by
  rw [cleanP, List.all_eq_true]

theorem newname_of_clean {p : FPath} (h : cleanP p = true) : newname p = p := by
  rw [newname_eq_filter]
  exact List.filter_eq_self.mpr ((cleanP_iff p).mp h)

theorem cleanP_newname (p : FPath) : cleanP (newname p) = true := by
  rw [cleanP_iff]
  intro c hc
  rw [newname_eq_filter] at hc
  exact (List.mem_filter.mp hc).2

theorem newname_idem (p : FPath) : newname (newname p) = newname p :=
  newname_of_clean (cleanP_newname p)

theorem newname_append (xs ys : FPath) :
    newname (xs ++ ys) = newname xs ++ newname ys := by
  simp [newname_eq_filter, List.filter_append]

theorem newname_slash_cons (xs : FPath) :
    newname ('/' :: xs) = '/' :: newname xs := by
  simp [newname_eq_filter, List.filter_cons]

theorem newname_length_lt {p : FPath} (h : cleanP p = false) :
    (newname p).length < p.length := by
  rw [newname_eq_filter]
  refine List.length_filter_lt_length_iff_exists.mpr ?_
  rcases List.all_eq_false.mp h with ⟨c, hc, hpred⟩
  exact ⟨c, hc, by simp_all⟩

theorem newname_ne_of_dirty {p : FPath} (h : cleanP p = false) : newname p ≠ p := by
  intro heq
  have := newname_length_lt h
  rw [heq] at this
  exact lt_irrefl _ this

theorem newname_no_slash {name : FPath} (h : ∀ c ∈ name, c ≠ '/') :
    ∀ c ∈ newname name, c ≠ '/' := by
  intro c hc
  rw [newname_eq_filter] at hc
  exact h c (List.mem_of_mem_filter hc)

theorem dropWhile_append_of_all {p : α → Bool} {xs : List α} (ys : List α)
    (h : ∀ x ∈ xs, p x = true) :
    (xs ++ ys).dropWhile p = ys.dropWhile p := by
  induction xs with
  | nil => rfl
  | cons x rest ih =>
    rw [List.cons_append, List.dropWhile_cons, if_pos (h x (List.mem_cons_self x rest))]
    exact ih (fun y hy => h y (List.mem_cons_of_mem x hy))

theorem dirname_joinP (folder name : FPath) (h : ∀ c ∈ name, c ≠ '/') :
    dirname (joinP folder name) = folder := by
  rw [dirname, joinP, List.reverse_append, List.reverse_cons, List.append_assoc]
  rw [dropWhile_append_of_all (['/'] ++ folder.reverse)
    (fun x hx => by simp [h x (List.mem_reverse.mp hx)])]
  rw [List.singleton_append, List.dropWhile_cons]
  simp

/-- C10: `_sanitize_filenames` computes each rename target by stripping
`:` and `?` from the whole path string, directory components included;
when the album folder's own path is free of those characters the target
stays in the album folder (the stripped basename under the same album
path), but when the album path contains such a character the target's
directory differs from the file's actual directory. -/
theorem sanitize_strips_whole_path (album name : FPath)
    (hname : ∀ c ∈ name, c ≠ '/') :
    (cleanP album = true →
      newname (joinP album name) = joinP album (newname name)
      ∧ dirname (joinP album (newname name)) = album)
    ∧ (cleanP album = false →
      dirname (newname (joinP album name)) ≠ dirname (joinP album name)
      ∧ dirname (joinP album name) = album) := by
  have hsplit : newname (joinP album name) = joinP (newname album) (newname name) := by
    rw [joinP, newname_append, newname_slash_cons, joinP]
  constructor
  · intro hclean
    refine ⟨?_, dirname_joinP album (newname name) (newname_no_slash hname)⟩
    rw [hsplit, newname_of_clean hclean]
  · intro hdirty
    refine ⟨?_, dirname_joinP album name hname⟩
    rw [hsplit, dirname_joinP (newname album) (newname name) (newname_no_slash hname),
      dirname_joinP album name hname]
    exact newname_ne_of_dirty hdirty

/-- C10 witness: a clean album path keeps the file in the folder; an
album path containing a colon sends the rename target elsewhere. -/
theorem sanitize_strips_whole_path_witness :
    (newname (joinP ("/al".data) ("x:y.flac".data))
        = joinP ("/al".data) (newname ("x:y.flac".data)))
    ∧ dirname (newname (joinP ("/a:l".data) ("x.flac".data)))
        ≠ dirname (joinP ("/a:l".data) ("x.flac".data)) :=
  ⟨((sanitize_strips_whole_path ("/al".data) ("x:y.flac".data) (by decide)).1 (by decide)).1,
    ((sanitize_strips_whole_path ("/a:l".data) ("x.flac".data) (by decide)).2 (by decide)).1⟩

theorem os_rename_eq_map (g : FS) (src dst : FPath)
    (hno : ∀ e ∈ g, e.1 ≠ dst) :
    os_rename g src dst = g.map (fun e => if e.1 == src then (dst, e.2) else e) := by
  rw [os_rename, List.filter_eq_self.mpr (fun e he => by simp [hno e he])]

theorem paths_map_rename (g : FS) (src dst : FPath) :
    (g.map (fun e => if e.1 == src then (dst, e.2) else e)).map Prod.fst
      = (g.map Prod.fst).map (fun p => if p == src then dst else p) := by
  rw [List.map_map, List.map_map]
  refine List.map_congr_left ?_
  intro e _
  by_cases h : e.1 = src <;> simp [h]

theorem sanitizeGo_eq_map (L : List FPath) :
    ∀ g : FS, L.Nodup →
    (∀ p ∈ L, p ∈ g.map Prod.fst) →
    (∀ p ∈ g.map Prod.fst, ∀ q ∈ g.map Prod.fst, newname p = newname q → p = q) →
    sanitizeGo L g = g.map (fun e => if e.1 ∈ L then (newname e.1, e.2) else e) := by
  induction L with
  | nil =>
    intro g _ _ _
    simp [sanitizeGo]
  | cons l L' ih =>
    intro g hnd hsub hinj
    have hndL' : L'.Nodup := (List.nodup_cons.mp hnd).2
    have hlnotin : l ∉ L' := (List.nodup_cons.mp hnd).1
    have hlg : l ∈ g.map Prod.fst := hsub l (List.mem_cons_self l L')
    by_cases hc : newname l = l
    · simp only [sanitizeGo, if_pos hc]
      rw [ih g hndL' (fun p hp => hsub p (List.mem_cons_of_mem l hp)) hinj]
      refine List.map_congr_left ?_
      intro e he
      obtain ⟨p, t⟩ := e
      by_cases h1 : p = l
      · by_cases h2 : p ∈ L' <;> simp [h1, h2, hc]
      · have hmemiff : p ∈ l :: L' ↔ p ∈ L' := by simp [List.mem_cons, h1]
        by_cases h2 : p ∈ L' <;> simp [h1, h2, hmemiff]
    · simp only [sanitizeGo, if_neg hc]
      have hnodst : ∀ e ∈ g, e.1 ≠ newname l := by
        intro e he heq
        have h1 : newname e.1 = newname l := by rw [heq, newname_idem]
        have h2 : e.1 = l := hinj e.1 (List.mem_map_of_mem _ he) l hlg h1
        exact hc (h2 ▸ heq).symm
      rw [os_rename_eq_map g l (newname l) hnodst]
      set g' := g.map (fun e => if e.1 == l then (newname l, e.2) else e) with hg'
      have hpaths : g'.map Prod.fst
          = (g.map Prod.fst).map (fun p => if p == l then newname l else p) :=
        paths_map_rename g l (newname l)
      have hnewF : ∀ p, newname (if p == l then newname l else p) = newname p := by
        intro p
        by_cases h : p = l
        · simp [h, newname_idem]
        · simp [h]
      have hsub' : ∀ p ∈ L', p ∈ g'.map Prod.fst := by
        intro p hp
        have hpg : p ∈ g.map Prod.fst := hsub p (List.mem_cons_of_mem l hp)
        have hpl : p ≠ l := fun h => hlnotin (h ▸ hp)
        rw [hpaths]
        exact List.mem_map.mpr ⟨p, hpg, by simp [hpl]⟩
      have hinj' : ∀ p ∈ g'.map Prod.fst, ∀ q ∈ g'.map Prod.fst,
          newname p = newname q → p = q := by
        intro p hp q hq hnn
        rw [hpaths] at hp hq
        rcases List.mem_map.mp hp with ⟨p0, hp0, hp0e⟩
        rcases List.mem_map.mp hq with ⟨q0, hq0, hq0e⟩
        rw [← hp0e, ← hq0e] at hnn ⊢
        rw [hnewF p0, hnewF q0] at hnn
        rw [hinj p0 hp0 q0 hq0 hnn]
      rw [ih g' hndL' hsub' hinj', hg', List.map_map]
      have hnn_notin : newname l ∉ L' := by
        intro hmem
        have h2 : newname l ∈ g.map Prod.fst := hsub (newname l) (List.mem_cons_of_mem l hmem)
        exact hc (hinj (newname l) h2 l hlg (newname_idem l))
      refine List.map_congr_left ?_
      intro e he
      obtain ⟨p, t⟩ := e
      by_cases h1 : p = l
      · simp [Function.comp, h1, hnn_notin, newname_idem]
      · have hmemiff : p ∈ l :: L' ↔ p ∈ L' := by simp [List.mem_cons, h1]
        by_cases h2 : p ∈ L' <;> simp [Function.comp, h1, h2, hmemiff]

theorem drop_joinP (album name : FPath) :
    (joinP album name).drop (album.length + 1) = name := by
  have h : joinP album name = (album ++ ['/']) ++ name := by simp [joinP]
  have hlen : (album ++ ['/']).length = album.length + 1 := by simp
  rw [h, ← hlen, List.drop_left]

theorem matchesGlob_no_slash {album name : FPath} {suf : List Char}
    (h : matchesGlob album suf (joinP album name) = true) :
    ∀ c ∈ name, c ≠ '/' := by
  intro c hc hceq
  rw [matchesGlob, drop_joinP] at h
  simp only [Bool.and_eq_true, Bool.not_eq_true] at h
  have hcontains := h.2.2
  subst hceq
  simp_all

/-- C4 (amended): provided the album folder's path is free of `:` and
`?` and no two file paths coincide after deleting those characters,
`_sanitize_filenames` renames exactly the glob-matched `*.flac` files,
each to its own path with the `:` and `?` characters deleted — for a
matched basename, to the stripped basename inside the same album folder
— leaves every path already free of those characters (and every
non-matching file) untouched with identical content, and afterwards no
glob-visible `*.flac` path in the folder contains `:` or `?`. Without
the collision proviso the claim fails: `os.rename` silently overwrites,
see the counterexample. -/
theorem sanitize_filenames_renames (album : FPath) (fs : FS)
    (hA : cleanP album = true)
    (hnd : (fs.map Prod.fst).Nodup)
    (hinj : ∀ p ∈ fs.map Prod.fst, ∀ q ∈ fs.map Prod.fst, newname p = newname q → p = q) :
    (sanitize_filenames album fs
      = fs.map (fun e =>
          if matchesGlob album flacSuf e.1 = true then (newname e.1, e.2) else e))
    ∧ (∀ name content, (joinP album name, content) ∈ fs →
        matchesGlob album flacSuf (joinP album name) = true →
        (joinP album (newname name), content) ∈ sanitize_filenames album fs)
    ∧ (∀ e ∈ fs, cleanP e.1 = true → e ∈ sanitize_filenames album fs)
    ∧ (∀ e ∈ sanitize_filenames album fs,
        matchesGlob album flacSuf e.1 = true → cleanP e.1 = true) := by
  have hmemL : ∀ e ∈ fs, (e.1 ∈ all fs album flacSuf ↔ matchesGlob album flacSuf e.1 = true) := by
    intro e he
    rw [all, mem_sortLe, List.mem_filter]
    exact ⟨fun h => h.2, fun h => ⟨List.mem_map_of_mem _ he, h⟩⟩
  have heq : sanitize_filenames album fs
      = fs.map (fun e =>
          if matchesGlob album flacSuf e.1 = true then (newname e.1, e.2) else e) := by
    rw [sanitize_filenames,
      sanitizeGo_eq_map (all fs album flacSuf) fs
        (nodup_sortLe _ _ (hnd.filter _))
        (fun p hp => by
          rw [all, mem_sortLe] at hp
          exact (List.mem_filter.mp hp).1)
        hinj]
    refine List.map_congr_left ?_
    intro e he
    by_cases h : matchesGlob album flacSuf e.1 = true
    · rw [if_pos ((hmemL e he).mpr h), if_pos h]
    · rw [if_neg (fun hm => h ((hmemL e he).mp hm)), if_neg h]
  refine ⟨heq, ?_, ?_, ?_⟩
  · intro name content hmem hglob
    have hns : ∀ c ∈ name, c ≠ '/' := matchesGlob_no_slash hglob
    have hsplit : newname (joinP album name) = joinP album (newname name) := by
      rw [joinP, newname_append, newname_slash_cons, newname_of_clean hA, joinP]
    rw [heq]
    refine List.mem_map.mpr ⟨(joinP album name, content), hmem, ?_⟩
    rw [if_pos hglob]
    rw [← hsplit]
  · intro e he hclean
    rw [heq]
    refine List.mem_map.mpr ⟨e, he, ?_⟩
    by_cases h : matchesGlob album flacSuf e.1 = true
    · rw [if_pos h, newname_of_clean hclean]
    · rw [if_neg h]
  · intro e hre hm
    rw [heq] at hre
    rcases List.mem_map.mp hre with ⟨e0, he0, hfe⟩
    by_cases h0 : matchesGlob album flacSuf e0.1 = true
    · rw [if_pos h0] at hfe
      rw [← hfe]
      exact cleanP_newname e0.1
    · rw [if_neg h0] at hfe
      rw [← hfe] at hm
      exact absurd hm h0

/-- C4 counterexample: in a folder holding `ab.flac` and `a:b.flac`, the
sanitization renames `a:b.flac` onto `ab.flac`, so the file whose name
contained neither `:` nor `?` does not survive untouched — its content
is silently replaced by the renamed file's. -/
theorem sanitize_filenames_clobbers :
    sanitize_filenames ("/a".data)
        [(("/a/ab.flac".data), "0".data), (("/a/a:b.flac".data), "1".data)]
      = [(("/a/ab.flac".data), "1".data)]
    ∧ (("/a/ab.flac".data), "0".data)
        ∈ ([(("/a/ab.flac".data), "0".data), (("/a/a:b.flac".data), "1".data)] : FS)
    ∧ cleanP ("/a/ab.flac".data) = true
    ∧ (("/a/ab.flac".data), "0".data)
        ∉ sanitize_filenames ("/a".data)
          [(("/a/ab.flac".data), "0".data), (("/a/a:b.flac".data), "1".data)] :=
  ⟨rfl, by decide, by decide, by decide⟩

/-- C4 witness: a collision-free folder. -/
theorem sanitize_filenames_renames_witness :
    sanitize_filenames ("/a".data)
        [(("/a/01 - A:B?.flac".data), "x".data), (("/a/02 - C.flac".data), "y".data),
          (("/a/f.log".data), "z".data)]
      = [(("/a/01 - AB.flac".data), "x".data), (("/a/02 - C.flac".data), "y".data),
          (("/a/f.log".data), "z".data)] := by
  rw [(sanitize_filenames_renames ("/a".data)
      [(("/a/01 - A:B?.flac".data), "x".data), (("/a/02 - C.flac".data), "y".data),
        (("/a/f.log".data), "z".data)] (by decide) (by decide) (by decide)).1]
  rfl

theorem convert_to_flac_shapes (fs : FS) (album : FPath) :
    ∀ x ∈ convert_to_flac fs album,
      (∃ w, x = Cmd.sox w) ∨ (∃ p, x = Cmd.shntool p) := by
  intro x hx
  rw [convert_to_flac] at hx
  rcases List.mem_append.mp hx with h | h
  · rcases hw : firstWavWv fs album with _ | w <;> rw [hw] at h
    · simp at h
    · exact Or.inl ⟨w, List.mem_singleton.mp h⟩
  · rcases ha : first fs album apeSuf with _ | a <;> rw [ha] at h
    · simp at h
    · exact Or.inr ⟨a, List.mem_singleton.mp h⟩

theorem cmds_shape_aux {fs1 fs2 : FS} {album c fl : FPath} {x : Cmd}
    (hx : x ∈ convert_to_flac fs1 album ++ [Cmd.shnsplit c fl]
      ++ [Cmd.cuetag c (all fs2 album flacSuf)]) :
    (∃ w, x = Cmd.sox w) ∨ (∃ p, x = Cmd.shntool p)
      ∨ (∃ fl2, x = Cmd.shnsplit c fl2) ∨ (∃ l, x = Cmd.cuetag c l) := by
  rcases List.mem_append.mp hx with h1 | h1
  · rcases List.mem_append.mp h1 with h2 | h2
    · rcases convert_to_flac_shapes fs1 album x h2 with h3 | h3
      exacts [Or.inl h3, Or.inr (Or.inl h3)]
    · exact Or.inr (Or.inr (Or.inl ⟨fl, List.mem_singleton.mp h2⟩))
  · exact Or.inr (Or.inr (Or.inr ⟨all fs2 album flacSuf, List.mem_singleton.mp h1⟩))


/-- The merged-FLAC path `_split_flac`/`_remove_flac` end up using: the
value cached at construction, or — when the folder had no FLAC then —
the re-glob after the cue preparation. -/
def flacAfterPrepare (fs : FS) (album : FPath) (fs1 : FS) : Option FPath :=
  match first fs album flacSuf with
  | some f => some f
  | none => first fs1 album flacSuf

theorem split_unfold_no_read (album : FPath) (fs : FS) (c : FPath)
    (hc : first fs album cueSuf = some c) (hr : read_file fs c = none) :
    split album fs = .error Fault.fileNotFound := by
  rcases hf : first fs album flacSuf with _ | f0 <;>
    simp [split, initState, get_cue_file, get_flac_file, hc, hf, hr]

theorem split_unfold (album : FPath) (fs : FS) (c : FPath) (t : List Char)
    (hc : first fs album cueSuf = some c) (hr : read_file fs c = some t) :
    split album fs =
      match remove_flac album
          (flacAfterPrepare fs album (write_file fs c (stripBOMAll t)))
          (write_file fs c (stripBOMAll t)) with
      | .error e => .error e
      | .ok fs2 =>
        .ok (remove_trash album (sanitize_filenames album fs2),
          convert_to_flac (write_file fs c (stripBOMAll t)) album
            ++ [Cmd.shnsplit c
                (strOf (flacAfterPrepare fs album (write_file fs c (stripBOMAll t))))]
            ++ [Cmd.cuetag c (all fs2 album flacSuf)]) := by
  rcases hf : first fs album flacSuf with _ | f0 <;>
    simp [split, initState, get_cue_file, get_flac_file, flacAfterPrepare, strOf, hc, hf, hr]

theorem split_cue_args (album : FPath) (fs : FS) (c : FPath)
    (h : first fs album cueSuf = some c) :
    ∀ x ∈ cmdsOf (split album fs),
      (∃ w, x = Cmd.sox w) ∨ (∃ p, x = Cmd.shntool p)
        ∨ (∃ fl, x = Cmd.shnsplit c fl) ∨ (∃ l, x = Cmd.cuetag c l) := by
  intro x hx
  rcases hr : read_file fs c with _ | t
  · rw [split_unfold_no_read album fs c h hr] at hx
    simp [cmdsOf] at hx
  · rw [split_unfold album fs c t h hr] at hx
    rcases hrf : remove_flac album
        (flacAfterPrepare fs album (write_file fs c (stripBOMAll t)))
        (write_file fs c (stripBOMAll t)) with e | fs2 <;> rw [hrf] at hx
    · simp [cmdsOf] at hx
    · simp only [cmdsOf] at hx
      exact cmds_shape_aux hx

/-- C7: the cue-sheet path is resolved once — at construction, as the
alphabetically first `*.cue` match — and cached; while cached, the
getter returns the same path against any later filesystem state without
re-globbing; and every cue-sheet argument the pipeline passes to a tool
(the `shnsplit` and `cuetag.sh` invocations) is that single path, no
matter how many cue files the folder holds. -/
theorem cue_resolved_once (album : FPath) (fs fs2 : FS) (c : FPath)
    (h : first fs album cueSuf = some c) :
    (initState fs album).cue = some c
    ∧ (∀ st : SpState, st.cue = some c → get_cue_file st fs2 album = (some c, st))
    ∧ (∀ cu fl, Cmd.shnsplit cu fl ∈ cmdsOf (split album fs) → cu = c)
    ∧ (∀ cu l, Cmd.cuetag cu l ∈ cmdsOf (split album fs) → cu = c) := by
  refine ⟨?_, ?_, ?_, ?_⟩
  · simp [initState, get_cue_file, get_flac_file, h]
  · intro st hst
    simp [get_cue_file, hst]
  · intro cu fl hmem
    rcases split_cue_args album fs c h _ hmem with ⟨w, hw⟩ | ⟨p, hp⟩ | ⟨fl2, hfl⟩ | ⟨l, hl⟩
    · simp at hw
    · simp at hp
    · rw [Cmd.shnsplit.injEq] at hfl
      exact hfl.1
    · simp at hl
  · intro cu l hmem
    rcases split_cue_args album fs c h _ hmem with ⟨w, hw⟩ | ⟨p, hp⟩ | ⟨fl2, hfl⟩ | ⟨l2, hl⟩
    · simp at hw
    · simp at hp
    · simp at hfl
    · rw [Cmd.cuetag.injEq] at hl
      exact hl.1

/-- C7 witness: a folder with two cue sheets resolves to the
alphabetically first, and the cached value is returned unchanged against
a later (even empty) filesystem. -/
theorem cue_resolved_once_witness :
    (initState [(("/a/b.cue".data), "B".data), (("/a/a.cue".data), "A".data)] ("/a".data)).cue
        = some ("/a/a.cue".data)
    ∧ get_cue_file ⟨some ("/a/a.cue".data), none⟩ [] ("/a".data)
        = (some ("/a/a.cue".data), ⟨some ("/a/a.cue".data), none⟩) :=
  ⟨(cue_resolved_once ("/a".data)
      [(("/a/b.cue".data), "B".data), (("/a/a.cue".data), "A".data)] [] ("/a/a.cue".data)
      (by decide)).1,
    (cue_resolved_once ("/a".data)
      [(("/a/b.cue".data), "B".data), (("/a/a.cue".data), "A".data)] [] ("/a/a.cue".data)
      (by decide)).2.1 ⟨some ("/a/a.cue".data), none⟩ rfl⟩

/-- C9: for an album folder that has a cue sheet but no `*.flac` file
and no conversion source (`*.wav`, `*.wv`, `*.ape` — so no conversion is
invoked and no conversion output can appear), the pipeline does not skip
the merged-FLAC-removal step: `os.remove(self._flac_file)` is applied to
the still-`None` cached field and raises an uncaught `TypeError`; in the
tree walk this fault ends the walk with only that album visited —
neither its own subfolders nor any later sibling is processed. -/
theorem split_faults_without_flac (album : FPath) (fs : FS)
    (hcue : first fs album cueSuf ≠ none)
    (hflac : all fs album flacSuf = [])
    (hwav : all fs album wavSuf = [])
    (hwv : all fs album wvSuf = [])
    (hape : all fs album apeSuf = []) :
    split album fs = .error Fault.typeError
    ∧ ∀ (fuel : Nat) (folder : FPath) (ds : List Dir) (cD : Dir) (rest : List Dir),
        sortDirs folder ds = cD :: rest →
        joinP folder cD.name = album →
        albumFs album cD.files = fs →
        process_folder (fuel + 1) folder ds = ([album], some Fault.typeError) := by
  have hfault : split album fs = .error Fault.typeError := by
    rcases Option.ne_none_iff_exists'.mp hcue with ⟨c, hc⟩
    rcases read_file_of_mem (mem_paths_of_first hc) with ⟨t, ht⟩
    rw [split_unfold album fs c t hc ht]
    have hf : first fs album flacSuf = none := by rw [first, hflac]; rfl
    have hp1 : (write_file fs c (stripBOMAll t)).map Prod.fst = fs.map Prod.fst :=
      write_file_paths _ (mem_paths_of_first hc)
    have hf1 : first (write_file fs c (stripBOMAll t)) album flacSuf = none := by
      rw [first, all_congr_paths album flacSuf hp1, hflac]; rfl
    have hFA : flacAfterPrepare fs album (write_file fs c (stripBOMAll t)) = none := by
      rw [flacAfterPrepare, hf, hf1]
    rw [hFA]
    simp [remove_flac]
  refine ⟨hfault, ?_⟩
  intro fuel folder ds cD rest hsort hname hfiles
  rw [process_folder, hsort]
  simp only [walkSorted, hname, hfiles, hfault]

/-- C9 witness: a cue-only album as the first of two sibling folders —
the walk stops at it and never reaches the second. -/
theorem split_faults_without_flac_witness :
    split ("/r/b".data) [(("/r/b/a.cue".data), "T".data)] = .error Fault.typeError
    ∧ process_folder 4 ("/r".data)
        [Dir.node ("b".data) [(("a.cue".data), "T".data)] [],
          Dir.node ("c".data) [(("x.cue".data), "X".data)] []]
      = (["/r/b".data], some Fault.typeError) :=
  ⟨(split_faults_without_flac ("/r/b".data) [(("/r/b/a.cue".data), "T".data)]
      (by decide) (by decide) (by decide) (by decide) (by decide)).1,
    (split_faults_without_flac ("/r/b".data) [(("/r/b/a.cue".data), "T".data)]
      (by decide) (by decide) (by decide) (by decide) (by decide)).2 3 ("/r".data)
      [Dir.node ("b".data) [(("a.cue".data), "T".data)] [],
        Dir.node ("c".data) [(("x.cue".data), "X".data)] []]
      (Dir.node ("b".data) [(("a.cue".data), "T".data)] [])
      [Dir.node ("c".data) [(("x.cue".data), "X".data)] []] rfl rfl rfl⟩

theorem countDirs_insertLe (le : Dir → Dir → Bool) (d : Dir) (l : List Dir) :
    countDirs (insertLe le d l) = sizeD d + countDirs l := by
  induction l with
  | nil => rfl
  | cons y ys ih =>
    rw [insertLe]
    by_cases h : le d y = true
    · rw [if_pos h]
      rfl
    · rw [if_neg h]
      show sizeD y + countDirs (insertLe le d ys) = sizeD d + (sizeD y + countDirs ys)
      rw [ih]
      omega

theorem countDirs_sortLe (le : Dir → Dir → Bool) (l : List Dir) :
    countDirs (sortLe le l) = countDirs l := by
  induction l with
  | nil => rfl
  | cons x xs ih =>
    rw [sortLe, countDirs_insertLe]
    show sizeD x + countDirs (sortLe le xs) = sizeD x + countDirs xs
    rw [ih]

theorem countDirs_sortDirs (folder : FPath) (ds : List Dir) :
    countDirs (sortDirs folder ds) = countDirs ds :=
  countDirs_sortLe _ ds

theorem length_lt_joinP (folder n : FPath) : folder.length < (joinP folder n).length := by
  simp [joinP]

theorem walk_eq_spec (fuel : Nat) :
    ∀ (folder : FPath) (LS : List Dir),
      countDirs LS < fuel → (walkSorted fuel folder LS).2 = none →
      (walkSorted fuel folder LS).1 = specGo fuel folder LS := by
  induction fuel with
  | zero =>
    intro folder LS h _
    exact absurd h (Nat.not_lt_zero _)
  | succ fuel ih =>
    intro folder LS hcount hnone
    cases LS with
    | nil => rfl
    | cons cD rest =>
      have e1 : countDirs (cD :: rest) = sizeD cD + countDirs rest := rfl
      have e2 : sizeD cD = 1 + countDirs cD.children := by
        cases cD
        rfl
      simp only [walkSorted, specGo] at hnone ⊢
      rcases hs : split (joinP folder cD.name) (albumFs (joinP folder cD.name) cD.files)
          with f | ok
      · rw [hs] at hnone
        exact Option.noConfusion hnone
      · rw [hs] at hnone
        rcases hw1 : walkSorted fuel (joinP folder cD.name)
            (sortDirs (joinP folder cD.name) cD.children) with ⟨vs, f?⟩
        rw [hw1] at hnone
        cases f? with
        | some f => exact Option.noConfusion hnone
        | none =>
          rcases hw2 : walkSorted fuel folder rest with ⟨vs2, r⟩
          rw [hw2] at hnone
          have hr : r = none := hnone
          have hc1 : countDirs (sortDirs (joinP folder cD.name) cD.children) < fuel := by
            rw [countDirs_sortDirs]
            omega
          have hc2 : countDirs rest < fuel := by omega
          have h1 : vs = specGo fuel (joinP folder cD.name)
              (sortDirs (joinP folder cD.name) cD.children) := by
            have h := ih (joinP folder cD.name) (sortDirs (joinP folder cD.name) cD.children)
              hc1 (by rw [hw1])
            rw [hw1] at h
            exact h
          have h2 : vs2 = specGo fuel folder rest := by
            have h := ih folder rest hc2 (by rw [hw2]; exact hr)
            rw [hw2] at h
            exact h
          show joinP folder cD.name :: (vs ++ vs2)
            = joinP folder cD.name ::
              (specGo fuel (joinP folder cD.name) (sortDirs (joinP folder cD.name) cD.children)
                ++ specGo fuel folder rest)
          rw [h1, h2]

theorem walk_lengths (fuel : Nat) :
    ∀ (folder : FPath) (LS : List Dir),
      ∀ v ∈ (walkSorted fuel folder LS).1, folder.length < v.length := by
  induction fuel with
  | zero =>
    intro folder LS v hv
    cases LS with
    | nil => simp [walkSorted] at hv
    | cons cD rest => simp [walkSorted] at hv
  | succ fuel ih =>
    intro folder LS v hv
    cases LS with
    | nil => simp [walkSorted] at hv
    | cons cD rest =>
      simp only [walkSorted] at hv
      rcases hs : split (joinP folder cD.name) (albumFs (joinP folder cD.name) cD.files)
          with f | ok
      · rw [hs] at hv
        have hva : v ∈ [joinP folder cD.name] := hv
        rw [List.mem_singleton.mp hva]
        exact length_lt_joinP folder cD.name
      · rw [hs] at hv
        rcases hw1 : walkSorted fuel (joinP folder cD.name)
            (sortDirs (joinP folder cD.name) cD.children) with ⟨vs, f?⟩
        rw [hw1] at hv
        have hchild : ∀ u ∈ vs, folder.length < u.length := by
          intro u hu
          have h1 := ih (joinP folder cD.name) (sortDirs (joinP folder cD.name) cD.children)
            u (by rw [hw1]; exact hu)
          exact lt_trans (length_lt_joinP folder cD.name) h1
        cases f? with
        | some f =>
          have hv' : v ∈ joinP folder cD.name :: vs := hv
          rcases List.mem_cons.mp hv' with h | h
          · rw [h]
            exact length_lt_joinP folder cD.name
          · exact hchild v h
        | none =>
          rcases hw2 : walkSorted fuel folder rest with ⟨vs2, r⟩
          rw [hw2] at hv
          have hv' : v ∈ joinP folder cD.name :: (vs ++ vs2) := hv
          rcases List.mem_cons.mp hv' with h | h
          · rw [h]
            exact length_lt_joinP folder cD.name
          · rcases List.mem_append.mp h with h2 | h2
            · exact hchild v h2
            · exact ih folder rest v (by rw [hw2]; exact h2)

/-- C3: over a fixed directory tree, when no album pipeline faults, the
recursive walk visits exactly the sorted pre-order of the tree below the
root: subfolders in lexicographically sorted order, each subfolder's
album pipeline running before its own subfolders are processed, a
folder's whole subtree completed before its next sibling; every visited
path lies strictly below the starting folder, so the root itself is
never processed as an album. (`fuel` bounds the recursion depth; any
bound above the tree's directory count gives the untruncated walk.) -/
theorem process_folder_preorder (fuel : Nat) (folder : FPath) (ds : List Dir)
    (hfuel : countDirs ds < fuel) :
    ((process_folder fuel folder ds).2 = none →
      (process_folder fuel folder ds).1 = specVisit fuel folder ds)
    ∧ (∀ v ∈ (process_folder fuel folder ds).1, folder.length < v.length)
    ∧ folder ∉ (process_folder fuel folder ds).1 := by
  refine ⟨?_, ?_, ?_⟩
  · intro h
    exact walk_eq_spec fuel folder (sortDirs folder ds)
      (by rw [countDirs_sortDirs]; exact hfuel) h
  · exact walk_lengths fuel folder (sortDirs folder ds)
  · intro hmem
    exact absurd (walk_lengths fuel folder (sortDirs folder ds) folder hmem)
      (lt_irrefl _)

/-- C3 witness: the spec's example tree — children `B` (holding `C`) and
`D` given unsorted; the walk visits `/A/B`, `/A/B/C`, `/A/D` and matches
the spec-side pre-order. -/
theorem process_folder_preorder_witness :
    ((process_folder 10 ("/A".data)
        [Dir.node ("D".data) [] [], Dir.node ("B".data) [] [Dir.node ("C".data) [] []]]).1
      = specVisit 10 ("/A".data)
          [Dir.node ("D".data) [] [], Dir.node ("B".data) [] [Dir.node ("C".data) [] []]])
    ∧ (process_folder 10 ("/A".data)
        [Dir.node ("D".data) [] [], Dir.node ("B".data) [] [Dir.node ("C".data) [] []]]).1
      = ["/A/B".data, "/A/B/C".data, "/A/D".data] :=
  ⟨(process_folder_preorder 10 ("/A".data)
      [Dir.node ("D".data) [] [], Dir.node ("B".data) [] [Dir.node ("C".data) [] []]]
      (by decide)).1 (by decide),
    by decide⟩
